import Mathlib

/-!
Verification of the `edit` repository's editor core (`src/editor/core.rs`)
and the delimiter matcher (`src/editor/mod.rs`).

The Rust `Core` struct stores the text as a flat `Vec<char>` together with a
derived `newline_indices` vector and a cursor `(line, column)`.  We embed it
shallowly: `Vec<char>` becomes `List Char`, `usize` becomes `Nat` (all the
arithmetic in the source stays within bounds on the paths we reason about, and
where the source would panic we model the function's result as `none`),
fallible constructors return `Option`.
-/

namespace Edit

/-- `Position` from core.rs: a line/column pair. -/
structure Position where
  line : Nat
  column : Nat
deriving DecidableEq, Repr

/-- The `Core` struct from core.rs. -/
structure Core where
  buffer : List Char
  newline_indices : List Nat
  line : Nat
  column : Nat
deriving DecidableEq, Repr

/-- The newline-index computation shared by `Core::new` and `Core::reset`:
collect the offsets of every `'\n'`, then push a sentinel equal to the buffer
length unless the last newline already sits at the final position. -/
def computeIndices (chars : List Char) : List Nat :=
  let indices := chars.enum.filterMap (fun p => if p.2 = '\n' then some p.1 else none)
  if indices.getLast?.map (· + 1) = some chars.length then indices
  else indices ++ [chars.length]

/-- `Core::new`.  Returns `none` where the Rust returns `Err`. -/
def Core.new (buffer : String) (line column : Nat) : Option Core :=
  let chars := buffer.data
  let indices := computeIndices chars
  if indices.length ≤ line then none
  else
    let width := indices.getD line 0 - (if line = 0 then 0 else indices.getD (line - 1) 0 + 1)
    if width < column then none
    else some ⟨chars, indices, line, column⟩

/-- `Core::line_count`. -/
def Core.line_count (c : Core) : Nat := c.newline_indices.length

/-- `Core::line_width` (`right` is `indices[n]`, `left` is `indices[n-1] + 1`). -/
def Core.line_width (c : Core) (n : Nat) : Option Nat :=
  if c.line_count ≤ n then none
  else if n = 0 then some (c.newline_indices.getD n 0)
  else some (c.newline_indices.getD n 0 - (c.newline_indices.getD (n - 1) 0 + 1))

/-- `Core::offset`.  The Rust guard `line >= line_count || line_width(line).unwrap() < column`
short-circuits, so `unwrap` never fires; we mirror it by matching on `line_width`. -/
def Core.offset (c : Core) (line column : Nat) : Option Nat :=
  match c.line_width line with
  | none => none
  | some w =>
    if w < column then none
    else if line = 0 then some column
    else some (c.newline_indices.getD (line - 1) 0 + 1 + column)

/-- `Core::current_offset`.  The Rust `expect`s that the cursor is valid; on
every state we reason about the cursor is valid, so we use `getD 0`. -/
def Core.current_offset (c : Core) : Nat :=
  (c.offset c.line c.column).getD 0

/-- `Core::move_right`: clamp `column + n` to the current line's width.
(`current_line_width` `expect`s a valid cursor, modelled with `getD 0`.) -/
def Core.move_right (c : Core) (n : Nat) : Core :=
  let width := (c.line_width c.line).getD 0
  if width ≤ c.column + n then { c with column := width }
  else { c with column := c.column + n }

/-- `Core::insert_at`.  A failed target lookup returns early (silent no-op);
otherwise the char is spliced into the buffer, the line index entries from
`line` on are shifted up by one, a `'\n'` also gets its own new index entry,
and the cursor is repaired exactly as in the source. -/
def Core.insert_at (c : Core) (ch : Char) (line column : Nat) : Core :=
  match c.offset line column with
  | none => c
  | some i =>
    let current_offset := c.current_offset
    let buf := c.buffer.insertIdx i ch
    let idx0 := c.newline_indices.take line ++ (c.newline_indices.drop line).map (· + 1)
    let idx := if ch = '\n' then idx0.insertIdx line i else idx0
    if ch = '\n' ∧ i ≤ current_offset then
      { buffer := buf, newline_indices := idx,
        line := c.line + 1,
        column := if c.line = line then current_offset - i else c.column }
    else if line = c.line ∧ column ≤ c.column then
      { buffer := buf, newline_indices := idx, line := c.line, column := c.column + 1 }
    else
      { buffer := buf, newline_indices := idx, line := c.line, column := c.column }

/-- `Core::insert_string_at`: insert each character of `s`, in reverse order,
at the same `(line, column)` target. -/
def Core.insert_string_at (c : Core) (s : List Char) (line column : Nat) : Core :=
  s.reverse.foldl (fun acc ch => acc.insert_at ch line column) c

/-- `Core::delete_at`.  `none` models a panic: the source calls
`Vec::remove(offset)`, which panics when `offset` equals the buffer length
(this happens for the in-range end-of-buffer slot).  Out-of-range targets
return `some c` — the silent no-op. -/
def Core.delete_at (c : Core) (line column : Nat) : Option Core :=
  match c.line_width line with
  | none => some c
  | some w =>
    if c.line_count ≤ line ∨ w < column then some c
    else
      let current_offset := c.current_offset
      let o := (c.offset line column).getD 0
      if _h : o < c.buffer.length then
        let ch := c.buffer.getD o ' '
        let idx1 := if ch = '\n' then c.newline_indices.eraseIdx line else c.newline_indices
        let idx := idx1.take line ++ (idx1.drop line).map (· - 1)
        let buf := c.buffer.eraseIdx o
        if ch = '\n' ∧ o < current_offset then
          some { buffer := buf, newline_indices := idx,
                 line := c.line - 1,
                 column := if c.line - 1 = line then w + current_offset - o - 1 else c.column }
        else if line = c.line ∧ column < c.column then
          some { buffer := buf, newline_indices := idx, line := c.line, column := c.column - 1 }
        else
          some { buffer := buf, newline_indices := idx, line := c.line, column := c.column }
      else none

/-- `Core::delete_range`: resolve both endpoints (the source `expect`s, i.e.
panics — modelled as `none` — when either is out of range), then call
`delete_at(start.line, start.column)` once per character of the range. -/
def Core.delete_range (c : Core) (start stop : Position) : Option Core :=
  match c.offset start.line start.column with
  | none => none
  | some s =>
    match c.offset stop.line stop.column with
    | none => none
    | some t =>
      (List.range (t - s)).foldlM (fun acc _ => acc.delete_at start.line start.column) c

/-- Iterator `rposition`: index of the last element satisfying `p`. -/
def rpos {α : Type} (p : α → Bool) (l : List α) : Option Nat :=
  (l.reverse.findIdx? p).map (fun i => l.length - 1 - i)

/-- `Core::previous_position`.  The source consumes a reverse iterator over
`buffer[..current_offset]`: first `rposition(f)` (finding the last `f`-char at
some index `k`, or returning `None` for the whole call), then — on the
remaining `[0, k)` part — `rposition(!f)`, mapping the resulting run start
through the line index; `.or(Some((0,0)))` fires only when that second scan
runs off the buffer start. -/
def Core.previous_position (c : Core) (f : Char → Bool) : Option Position :=
  let off := c.current_offset
  let indices := c.newline_indices.take c.line
  let pre := c.buffer.take off
  match rpos f pre with
  | none => none
  | some k =>
    match rpos (fun ch => !f ch) (pre.take k) with
    | none => some ⟨0, 0⟩
    | some j =>
      let n := j + 1
      match rpos (fun x => decide (x < n)) indices with
      | none => some ⟨0, n⟩
      | some i => some ⟨i + 1, n - c.newline_indices.getD i 0 - 1⟩

/-- The scan closure inside `Editor::match_pair` (mod.rs): a stateful
`position` over the remaining characters, with nesting level `lvl`; on the
`op` character the level goes up, on the `cl` character the scan either stops
(level zero) or steps the level down, anything else is skipped. -/
def scanF (op cl : Char) : Nat → List Char → Option Nat
  | _, [] => none
  | lvl, a :: rest =>
    if a = op then (scanF op cl (lvl + 1) rest).map (· + 1)
    else if a ≠ cl then (scanF op cl lvl rest).map (· + 1)
    else if lvl = 0 then some 0
    else (scanF op cl (lvl - 1) rest).map (· + 1)

/-- `Editor::match_pair` (mod.rs).  The Rust `Paren { open, close }` pair is
passed here as the two characters `op`, `cl`.  The source indexes
`self.buffer()[n]` without a bounds check, so when the cursor offset equals
the buffer length the call panics: that is the outer `none`.  An inner
`Option Nat` is the source's return value. -/
def Core.match_pair (c : Core) (op cl : Char) : Option (Option Nat) :=
  let n := c.current_offset
  match c.buffer.get? n with
  | none => none
  | some x =>
    if x = op then
      some ((scanF op cl 0 (c.buffer.drop (n + 1))).map (· + n + 1))
    else if x = cl then
      some ((scanF cl op 0 ((c.buffer.take n).reverse)).map (fun i => n - 1 - i))
    else some none

/-- Occurrence count of a character in a list (the specification-side
measure used to characterise the delimiter scan). -/
def ccount (a : Char) : List Char → Nat
  | [] => 0
  | b :: t => (if b = a then 1 else 0) + ccount a t

/-- The declarative reading of the forward delimiter scan on a suffix `l`:
position `j` holds the closing character, and among the characters strictly
before it the closes exceed the opens by exactly `lvl` (so with `lvl = 0`
the delimiters strictly between are balanced). -/
def BalancedCloseAt (op cl : Char) (lvl : Nat) (l : List Char) (j : Nat) : Prop :=
  j < l.length ∧ l.getD j ' ' = cl ∧
  ccount cl (l.take j) = lvl + ccount op (l.take j)

instance (op cl : Char) (lvl : Nat) (l : List Char) (j : Nat) :
    Decidable (BalancedCloseAt op cl lvl l j) := by
  unfold BalancedCloseAt; infer_instance

/-- The structural well-formedness we require of a "valid Core": the line
index is strictly increasing, its entries are bounded by the buffer length,
and the cursor addresses a valid slot.  Every `Core::new`-constructed value
satisfies it. -/
def Core.WF (c : Core) : Prop :=
  c.newline_indices.Pairwise (· < ·) ∧
  (∀ x ∈ c.newline_indices, x ≤ c.buffer.length) ∧
  (c.offset c.line c.column).isSome

instance (c : Core) : Decidable c.WF := by
  unfold Core.WF; infer_instance

/-- The codepoint offset at which line `n` starts: `0` for the first line,
`index[n-1] + 1` afterwards.  This names the subexpression that both
`Core::line_width` and `Core::offset` compute. -/
def lineStart (c : Core) (n : Nat) : Nat :=
  if n = 0 then 0 else c.newline_indices.getD (n - 1) 0 + 1

/- Concrete cores used by the example theorems.  Each one is certified
against `Core.new` in the theorem that uses it. -/

/-- Buffer `"Hello, world!\nThe 2nd line."` with cursor `(1, 6)`. -/
def coreHello : Core := ⟨"Hello, world!\nThe 2nd line.".data, [13, 27], 1, 6⟩

/-- Buffer `"a"` with cursor `(0, 0)`. -/
def coreA : Core := ⟨"a".data, [1], 0, 0⟩

/-- Buffer `"a\n"` with cursor `(0, 0)`. -/
def coreNL : Core := ⟨"a\n".data, [1], 0, 0⟩

/-- The state `delete_at(0, 1)` leaves behind from `coreNL`: the line index
is empty, so `line_count = 0` and the cursor no longer addresses a line. -/
def coreNLBroken : Core := ⟨"a".data, [], 0, 0⟩

/-- Buffer `"a\nb\nc"` with cursor `(1, 1)`: the cursor's offset is `3`,
which is exactly the offset of the second newline. -/
def coreABC : Core := ⟨"a\nb\nc".data, [1, 3, 5], 1, 1⟩

/-- Buffer `"**\na**"` with cursor `(0, 1)`: no alphanumeric character
precedes the cursor. -/
def coreStars : Core := ⟨"**\na**".data, [2, 6], 0, 1⟩

/-- Buffer `"a ( b ) c"` with cursor `(0, 2)`, on the `(`. -/
def coreParen : Core := ⟨"a ( b ) c".data, [9], 0, 2⟩

/-- Buffer `"a ( b ) c"` with cursor `(0, 0)`, on the `a`. -/
def coreParenA : Core := ⟨"a ( b ) c".data, [9], 0, 0⟩

/-- Buffer `"ab"` with the cursor in the end-of-buffer slot `(0, 2)`. -/
def coreAB : Core := ⟨"ab".data, [2], 0, 2⟩

/-- Buffer `"aaa ccc ddd"` with cursor `(0, 7)` (from the repository's
`test_insert_string_at`). -/
def coreDdd : Core := ⟨"aaa ccc ddd".data, [11], 0, 7⟩

section Toolkit

variable {c : Core} {l col n w i : Nat}

theorem line_width_some (h : n < c.line_count) :
    c.line_width n = some (c.newline_indices.getD n 0 - lineStart c n) := by
  unfold Core.line_width lineStart
  rw [if_neg (by omega)]
  rcases Nat.eq_zero_or_pos n with h0 | h0
  · subst h0
    rw [if_pos rfl, if_pos rfl, Nat.sub_zero]
  · rw [if_neg (by omega), if_neg (by omega)]

theorem line_width_none (h : c.line_count ≤ n) : c.line_width n = none := by
  unfold Core.line_width
  rw [if_pos (by omega)]

theorem line_width_some_inv (h : c.line_width n = some w) :
    n < c.line_count ∧ w = c.newline_indices.getD n 0 - lineStart c n := by
  rcases Nat.lt_or_ge n c.line_count with hn | hn
  · rw [line_width_some hn] at h
    cases h
    exact ⟨hn, rfl⟩
  · rw [line_width_none hn] at h
    cases h

theorem offset_some {v : Nat} (hlw : c.line_width l = some v) (hcol : col ≤ v) :
    c.offset l col = some (lineStart c l + col) := by
  unfold Core.offset
  simp only [hlw]
  rw [if_neg (by omega)]
  unfold lineStart
  rcases Nat.eq_zero_or_pos l with h0 | h0
  · subst h0
    rw [if_pos rfl, if_pos rfl, Nat.zero_add]
  · rw [if_neg (by omega), if_neg (by omega)]

theorem offset_none_of_width_none (hlw : c.line_width l = none) :
    c.offset l col = none := by
  unfold Core.offset
  simp only [hlw]

theorem offset_none_of_width_lt {v : Nat} (hlw : c.line_width l = some v)
    (hcol : v < col) : c.offset l col = none := by
  unfold Core.offset
  simp only [hlw]
  rw [if_pos hcol]

theorem offset_some_inv (h : c.offset l col = some i) :
    ∃ v, c.line_width l = some v ∧ col ≤ v ∧ i = lineStart c l + col := by
  rcases hlw : c.line_width l with _ | v
  · rw [offset_none_of_width_none hlw] at h
    cases h
  · rcases Nat.lt_or_ge v col with hv | hv
    · rw [offset_none_of_width_lt hlw hv] at h
      cases h
    · rw [offset_some hlw hv] at h
      cases h
      exact ⟨v, rfl, hv, rfl⟩

theorem offset_none_inv (h : c.offset l col = none) :
    c.line_width l = none ∨ ∃ v, c.line_width l = some v ∧ v < col := by
  rcases hlw : c.line_width l with _ | v
  · exact Or.inl rfl
  · rcases Nat.lt_or_ge v col with hv | hv
    · exact Or.inr ⟨v, rfl, hv⟩
    · rw [offset_some hlw hv] at h
      cases h

/-- In a strictly ascending list, `getD` is strictly monotone (within bounds). -/
theorem getD_lt_getD_of_pairwise {idx : List Nat} (h : idx.Pairwise (· < ·))
    {a b : Nat} (hab : a < b) (hb : b < idx.length) :
    idx.getD a 0 < idx.getD b 0 := by
  rw [List.getD_eq_getElem _ _ (by omega), List.getD_eq_getElem _ _ hb]
  exact List.pairwise_iff_getElem.mp h a b (by omega) hb hab

theorem getD_le_getD_of_pairwise {idx : List Nat} (h : idx.Pairwise (· < ·))
    {a b : Nat} (hab : a ≤ b) (hb : b < idx.length) :
    idx.getD a 0 ≤ idx.getD b 0 := by
  rcases Nat.lt_or_ge a b with h' | h'
  · exact Nat.le_of_lt (getD_lt_getD_of_pairwise h h' hb)
  · have : a = b := by omega
    subst this; exact Nat.le_refl _

theorem lineStart_le_getD (hasc : c.newline_indices.Pairwise (· < ·))
    (hl : l < c.line_count) :
    lineStart c l ≤ c.newline_indices.getD l 0 := by
  unfold lineStart
  rcases Nat.eq_zero_or_pos l with h0 | h0
  · simp [h0]
  · rw [if_neg (by omega)]
    have := getD_lt_getD_of_pairwise hasc (a := l - 1) (b := l) (by omega) hl
    omega

theorem offset_le_getD (hasc : c.newline_indices.Pairwise (· < ·))
    (h : c.offset l col = some i) :
    l < c.line_count ∧ i ≤ c.newline_indices.getD l 0 := by
  rcases offset_some_inv h with ⟨v, hv, hcol, hi⟩
  rcases line_width_some_inv hv with ⟨hl, hw⟩
  refine ⟨hl, ?_⟩
  have := lineStart_le_getD hasc hl
  omega

theorem getD_le_length {idx : List Nat} {len : Nat}
    (hb : ∀ x ∈ idx, x ≤ len) {a : Nat} (ha : a < idx.length) :
    idx.getD a 0 ≤ len := by
  rw [List.getD_eq_getElem _ _ ha]
  exact hb _ (List.getElem_mem ha)

theorem offset_le_length (hwf : c.WF) (h : c.offset l col = some i) :
    i ≤ c.buffer.length := by
  obtain ⟨hasc, hbound, -⟩ := hwf
  obtain ⟨hl, hle⟩ := offset_le_getD hasc h
  exact Nat.le_trans hle (getD_le_length hbound hl)

theorem current_offset_eq (h : c.offset c.line c.column = some i) :
    c.current_offset = i := by
  unfold Core.current_offset
  rw [h]; rfl

/-- A well-formed core's cursor has a resolvable offset. -/
theorem wf_current_offset (hwf : c.WF) :
    c.offset c.line c.column = some c.current_offset := by
  obtain ⟨-, -, hsome⟩ := hwf
  rcases Option.isSome_iff_exists.mp hsome with ⟨v, hv⟩
  rw [hv, current_offset_eq hv]

end Toolkit

theorem rpos_eq_none_iff {α : Type} (p : α → Bool) (l : List α) :
    rpos p l = none ↔ ∀ a ∈ l, p a = false := by
  unfold rpos
  rw [Option.map_eq_none', List.findIdx?_eq_none_iff]
  constructor
  · intro h a ha
    exact h a (List.mem_reverse.mpr ha)
  · intro h a ha
    exact h a (List.mem_reverse.mp ha)

/-- Claim C8: `offset(line, column)` returns the absolute codepoint offset
`(line == 0 ? 0 : index[line-1] + 1) + column` whenever the line is in range
and the column is at most the line's width, and returns the absence value
`none` (that code path cannot panic) when the line is out of range or the
column exceeds the line's width. -/
theorem C8_offset_contract (c : Core) (l col : Nat) :
    (∀ w, c.line_width l = some w → col ≤ w →
      c.offset l col =
        some ((if l = 0 then 0 else c.newline_indices.getD (l - 1) 0 + 1) + col)) ∧
    (c.line_count ≤ l → c.offset l col = none) ∧
    (∀ w, c.line_width l = some w → w < col → c.offset l col = none) := by
  refine ⟨fun w hw hcol => ?_, fun hl => ?_, fun w hw hcol => ?_⟩
  · simpa only [lineStart] using offset_some hw hcol
  · exact offset_none_of_width_none (line_width_none hl)
  · exact offset_none_of_width_lt hw hcol

/-- Witness for C8 at a concrete input: in `"Hello, world!\nThe 2nd line."`
line 1 has width 13 and `offset(1, 1)` is `index[0] + 1 + 1 = 15`. -/
theorem C8_offset_contract_witness :
    coreHello.line_width 1 = some 13 ∧
    coreHello.offset 1 1 =
      some ((if (1 : Nat) = 0 then 0 else coreHello.newline_indices.getD (1 - 1) 0 + 1) + 1) :=
  ⟨by decide, (C8_offset_contract coreHello 1 1).1 13 (by decide) (by decide)⟩

/-- Claim C9: `move_right(n)` clamps the column to the current line's width
and never leaves the line: if `column + n ≥ width` the column becomes the
width, otherwise `column + n`; concretely, from `"Hello, world!\nThe 2nd
line."` at `(1, 6)`, eight successive `move_right(1)` calls give columns
7, 8, 9, 10, 11, 12, 13 and then 13 again. -/
theorem C9_move_right_clamps (c : Core) (n w : Nat)
    (hw : c.line_width c.line = some w) :
    ((c.move_right n).line = c.line ∧ (c.move_right n).buffer = c.buffer ∧
      (c.move_right n).column = if w ≤ c.column + n then w else c.column + n) ∧
    (Core.new "Hello, world!\nThe 2nd line." 1 6 = some coreHello ∧
      (List.range 8).map
          (fun k => ((fun x => Core.move_right x 1)^[k + 1] coreHello).column)
        = [7, 8, 9, 10, 11, 12, 13, 13]) := by
  refine ⟨?_, by decide, by decide⟩
  unfold Core.move_right
  simp only [hw, Option.getD_some]
  split_ifs with h <;> exact ⟨rfl, rfl, rfl⟩

/-- Witness for C9: from `(1, 6)` in `"Hello, world!\nThe 2nd line."`,
`move_right 100` clamps the column to the line width 13. -/
theorem C9_move_right_clamps_witness :
    (coreHello.move_right 100).line = 1 ∧ (coreHello.move_right 100).column = 13 := by
  have h := (C9_move_right_clamps coreHello 100 13 (by decide)).1
  refine ⟨h.1, ?_⟩
  rw [h.2.2, if_pos (by decide)]

/-- Claim C10: the valid core `Core::new("ab", 0, 2)` has its cursor in the
end-of-buffer slot (last line, column = width), so its offset equals the
buffer length; `match_pair` indexes `buffer[offset]` without a bounds check
and panics (modelled by the outer `none`) instead of reporting "no match" —
`match_pair` is not total over valid cursor states. -/
theorem C10_match_pair_panics :
    Core.new "ab" 0 2 = some coreAB ∧ coreAB.WF ∧
    coreAB.line = coreAB.line_count - 1 ∧
    coreAB.column = (coreAB.line_width coreAB.line).getD 0 ∧
    coreAB.current_offset = coreAB.buffer.length ∧
    coreAB.match_pair '(' ')' = none := by
  refine ⟨by decide, by decide, by decide, by decide, by decide, by decide⟩

/-- Claim C2 (code bug): from the valid core for `"a\n"` with cursor
`(0, 0)`, the in-range call `delete_at(0, 1)` removes the buffer's only
newline and its line-index entry, leaving `line_count() = 0`; the cursor
still has line 0, so `cursor.line < line_count()` is false and
`line_width(cursor.line)` no longer exists. -/
theorem C2_invariant_broken :
    Core.new "a\n" 0 0 = some coreNL ∧ coreNL.WF ∧
    coreNL.delete_at 0 1 = some coreNLBroken ∧
    coreNLBroken.line_count = 0 ∧
    ¬(coreNLBroken.line < coreNLBroken.line_count) ∧
    coreNLBroken.line_width coreNLBroken.line = none := by
  refine ⟨by decide, by decide, by decide, by decide, by decide, by decide⟩

/-- Claim C1 (amended): on an out-of-range `(line, column)` target,
`insert_at`, `insert_string_at` and `delete_at` return normally and leave the
whole state unchanged, but `delete_range` panics (the source's `expect`,
modelled by `none`) whenever its start — or its end — is out of range. -/
theorem C1_out_of_range_policy (c : Core) (l col : Nat)
    (h : c.offset l col = none) :
    (∀ ch, c.insert_at ch l col = c) ∧
    (∀ s, c.insert_string_at s l col = c) ∧
    c.delete_at l col = some c ∧
    (∀ stop, c.delete_range ⟨l, col⟩ stop = none) ∧
    (∀ start, c.delete_range start ⟨l, col⟩ = none) := by
  have hins : ∀ ch, c.insert_at ch l col = c := by
    intro ch
    unfold Core.insert_at
    simp only [h]
  have hfold : ∀ (lst : List Char),
      lst.foldl (fun acc ch => acc.insert_at ch l col) c = c := by
    intro lst
    induction lst with
    | nil => rfl
    | cons a t ih =>
      simp only [List.foldl_cons, hins a, ih]
  refine ⟨hins, fun s => hfold s.reverse, ?_, fun stop => ?_, fun start => ?_⟩
  · rcases offset_none_inv h with hlw | ⟨v, hlw, hv⟩
    · unfold Core.delete_at
      simp only [hlw]
    · unfold Core.delete_at
      simp only [hlw]
      rw [if_pos (Or.inr hv)]
  · unfold Core.delete_range
    simp only [h]
  · unfold Core.delete_range
    rcases hs : c.offset start.line start.column with _ | s
    · simp only [hs]
    · simp only [hs, h]

/-- Witness for C1 (amended) at a concrete input: on `"a"` with cursor
`(0, 0)`, target `(10, 10)` is out of range, insertion and deletion are
no-ops, and `delete_range` starting there panics. -/
theorem C1_out_of_range_policy_witness :
    coreA.insert_at 'z' 10 10 = coreA ∧
    coreA.insert_string_at "zz".data 10 10 = coreA ∧
    coreA.delete_at 10 10 = some coreA ∧
    coreA.delete_range ⟨10, 10⟩ ⟨10, 11⟩ = none :=
  ⟨(C1_out_of_range_policy coreA 10 10 (by decide)).1 'z',
   (C1_out_of_range_policy coreA 10 10 (by decide)).2.1 "zz".data,
   (C1_out_of_range_policy coreA 10 10 (by decide)).2.2.1,
   (C1_out_of_range_policy coreA 10 10 (by decide)).2.2.2.1 ⟨10, 11⟩⟩

/-- Claim C1 counterexample: the claim as stated is false for
`delete_range`: from the valid core for `"a"`, the out-of-range range
`(5,5)..(6,6)` makes `delete_range` panic (the `expect` on the start offset,
modelled by `none`) instead of being a silent no-op. -/
theorem C1_counterexample :
    Core.new "a" 0 0 = some coreA ∧ coreA.WF ∧
    coreA.offset 5 5 = none ∧
    coreA.delete_range ⟨5, 5⟩ ⟨6, 6⟩ = none ∧
    coreA.delete_range ⟨5, 5⟩ ⟨6, 6⟩ ≠ some coreA := by
  refine ⟨by decide, by decide, by decide, by decide, by decide⟩

/-- Claim C4 counterexample: in `"a\nb\nc"` with cursor `(1, 1)` the
cursor's pre-mutation offset is 3 and `delete_at(1, 1)` removes the newline
at offset 3 — a newline "at or before" the cursor's offset — yet the
cursor's line stays 1 rather than decreasing by one: the condition in the
code is strict (`offset < current_offset`). -/
theorem C4_counterexample :
    Core.new "a\nb\nc" 1 1 = some coreABC ∧ coreABC.WF ∧
    coreABC.buffer.getD ((coreABC.offset 1 1).getD 0) ' ' = '\n' ∧
    (coreABC.offset 1 1).getD 0 ≤ coreABC.current_offset ∧
    coreABC.line = 1 ∧
    (coreABC.delete_at 1 1).map Core.line = some 1 ∧
    (coreABC.delete_at 1 1).map Core.line ≠ some (coreABC.line - 1) := by
  refine ⟨by decide, by decide, by decide, by decide, by decide, by decide, by decide⟩

/-- Claim C4 (amended): for a valid core and a valid `delete_at` target
whose removed character is a newline at offset `o` STRICTLY before the
cursor's pre-mutation offset, the cursor's line decreases by one, and when
the deletion's line equals the now-decremented cursor line the column
becomes `width + current_offset - o - 1`, otherwise the column is kept. -/
theorem C4_delete_newline_repair (c : Core) (l col o w : Nat)
    (hwf : c.WF)
    (hw : c.line_width l = some w) (hcol : col ≤ w)
    (ho : c.offset l col = some o)
    (hch : c.buffer.getD o ' ' = '\n')
    (hlt : o < c.current_offset) :
    ∃ c', c.delete_at l col = some c' ∧
      c'.line = c.line - 1 ∧
      (c.line - 1 = l → c'.column = w + c.current_offset - o - 1) ∧
      (¬(c.line - 1 = l) → c'.column = c.column) := by
  have hl : l < c.line_count := (line_width_some_inv hw).1
  have hcur := wf_current_offset hwf
  have hcurlen : c.current_offset ≤ c.buffer.length := offset_le_length hwf hcur
  have hbound : o < c.buffer.length := Nat.lt_of_lt_of_le hlt hcurlen
  unfold Core.delete_at
  simp only [hw, ho, Option.getD_some]
  rw [if_neg (by omega), dif_pos hbound]
  simp only [hch]
  rw [if_pos ⟨trivial, hlt⟩]
  refine ⟨_, rfl, rfl, fun hll => ?_, fun hll => ?_⟩
  · simp only [if_pos hll]
  · simp only [if_neg hll]

/-- Witness for C4 (amended): in `"abc\ndef"` with cursor `(1, 0)` (offset
4), deleting at `(0, 3)` removes the newline at offset 3 < 4; the line
becomes 0 and, the deletion line being the new cursor line, the column
becomes `3 + 4 - 3 - 1 = 3` — the repository's own `test_delete_at` case. -/
theorem C4_delete_newline_repair_witness :
    ∃ c', Core.delete_at ⟨"abc\ndef".data, [3, 7], 1, 0⟩ 0 3 = some c' ∧
      c'.line = 0 ∧ c'.column = 3 := by
  obtain ⟨c', h1, h2, h3, -⟩ :=
    C4_delete_newline_repair ⟨"abc\ndef".data, [3, 7], 1, 0⟩ 0 3 3 3
      (by decide) (by decide) (by decide) (by decide) (by decide) (by decide)
  exact ⟨c', h1, h2, h3 (by decide)⟩

/-- Claim C5 counterexample: in `"**\na**"` with cursor `(0, 1)` no
alphanumeric character occurs before the cursor's offset, and
`previous_position` returns `none` — the absence value — not `(0, 0)`.
(This is the repository's own `test_previous_keyword_position`.) -/
theorem C5_counterexample :
    Core.new "**\na**" 0 1 = some coreStars ∧ coreStars.WF ∧
    (∀ a ∈ coreStars.buffer.take coreStars.current_offset, Char.isAlphanum a = false) ∧
    coreStars.previous_position Char.isAlphanum = none ∧
    coreStars.previous_position Char.isAlphanum ≠ some ⟨0, 0⟩ := by
  refine ⟨by decide, by decide, by decide, by decide, by decide⟩

/-- Claim C5 (amended): `previous_position(f)` returns `none` when no
character before the cursor's offset satisfies `f`; the `(0, 0)` floor is
returned when a satisfying character is found but the scan for the start of
its run runs off the start of the buffer (every earlier character satisfies
`f` as well). -/
theorem C5_previous_position_floor (c : Core) (f : Char → Bool) :
    ((∀ a ∈ c.buffer.take c.current_offset, f a = false) →
      c.previous_position f = none) ∧
    (∀ k, rpos f (c.buffer.take c.current_offset) = some k →
      (∀ a ∈ (c.buffer.take c.current_offset).take k, f a = true) →
      c.previous_position f = some ⟨0, 0⟩) := by
  constructor
  · intro h
    unfold Core.previous_position
    simp only [(rpos_eq_none_iff f _).mpr h]
  · intro k hk hall
    unfold Core.previous_position
    simp only [hk]
    have hnone : rpos (fun ch => !f ch) ((c.buffer.take c.current_offset).take k) = none := by
      rw [rpos_eq_none_iff]
      intro a ha
      rw [hall a ha]
      rfl
    simp only [hnone]

/-- Witness for C5 (amended): in `"ab"` with the cursor at offset 2, the
last alphanumeric is at index 1 and everything before it is alphanumeric,
so the backward scan runs off the buffer start and yields `(0, 0)`. -/
theorem C5_previous_position_floor_witness :
    coreAB.previous_position Char.isAlphanum = some ⟨0, 0⟩ :=
  (C5_previous_position_floor coreAB Char.isAlphanum).2 1 (by decide) (by decide)

theorem balanced_zero {op cl a : Char} {rest : List Char} {lvl : Nat} :
    BalancedCloseAt op cl lvl (a :: rest) 0 ↔ a = cl ∧ lvl = 0 := by
  unfold BalancedCloseAt
  simp only [List.length_cons, List.take_zero, ccount, List.getD_cons_zero]
  constructor
  · rintro ⟨-, h2, h3⟩
    exact ⟨h2, by omega⟩
  · rintro ⟨h2, h3⟩
    exact ⟨by omega, h2, by omega⟩

theorem balanced_succ_op {op cl : Char} {rest : List Char} {lvl j : Nat}
    (hne : op ≠ cl) :
    BalancedCloseAt op cl lvl (op :: rest) (j + 1) ↔
      BalancedCloseAt op cl (lvl + 1) rest j := by
  unfold BalancedCloseAt
  simp only [List.length_cons, List.getD_cons_succ, List.take_succ_cons, ccount]
  rw [if_neg hne, if_pos trivial]
  constructor <;> rintro ⟨h1, h2, h3⟩ <;> exact ⟨by omega, h2, by omega⟩

theorem balanced_succ_other {op cl a : Char} {rest : List Char} {lvl j : Nat}
    (hao : a ≠ op) (hac : a ≠ cl) :
    BalancedCloseAt op cl lvl (a :: rest) (j + 1) ↔
      BalancedCloseAt op cl lvl rest j := by
  unfold BalancedCloseAt
  simp only [List.length_cons, List.getD_cons_succ, List.take_succ_cons, ccount]
  rw [if_neg hac, if_neg hao]
  constructor <;> rintro ⟨h1, h2, h3⟩ <;> exact ⟨by omega, h2, by omega⟩

theorem balanced_succ_cl {op cl : Char} {rest : List Char} {lvl j : Nat}
    (hne : op ≠ cl) (hl : 1 ≤ lvl) :
    BalancedCloseAt op cl lvl (cl :: rest) (j + 1) ↔
      BalancedCloseAt op cl (lvl - 1) rest j := by
  unfold BalancedCloseAt
  simp only [List.length_cons, List.getD_cons_succ, List.take_succ_cons, ccount]
  rw [if_pos trivial, if_neg (fun h => hne h.symm)]
  constructor <;> rintro ⟨h1, h2, h3⟩ <;> exact ⟨by omega, h2, by omega⟩

/-- The stateful scan of `match_pair` returns exactly the FIRST position at
which the closing character appears with the delimiters before it balanced
(at the current nesting level). -/
theorem scanF_eq_some_iff {op cl : Char} (hne : op ≠ cl) :
    ∀ (l : List Char) (lvl j : Nat),
      scanF op cl lvl l = some j ↔
        BalancedCloseAt op cl lvl l j ∧
        ∀ j' < j, ¬ BalancedCloseAt op cl lvl l j' := by
  intro l
  induction l with
  | nil =>
    intro lvl j
    constructor
    · intro h; cases h
    · rintro ⟨⟨hj, -, -⟩, -⟩
      cases hj
  | cons a rest ih =>
    intro lvl j
    by_cases haop : a = op
    · subst haop
      rw [show scanF a cl lvl (a :: rest) = (scanF a cl (lvl + 1) rest).map (· + 1) by
        simp only [scanF]
        rw [if_pos trivial]]
      constructor
      · intro h
        rcases Option.map_eq_some'.mp h with ⟨k, hk, rfl⟩
        rcases (ih (lvl + 1) k).mp hk with ⟨hb, hmin⟩
        refine ⟨(balanced_succ_op hne).mpr hb, ?_⟩
        intro j' hj' hbj'
        cases j' with
        | zero => exact hne ((balanced_zero.mp hbj').1)
        | succ j'' =>
          exact hmin j'' (by omega) ((balanced_succ_op hne).mp hbj')
      · rintro ⟨hb, hmin⟩
        cases j with
        | zero => exact absurd (balanced_zero.mp hb).1 hne
        | succ k =>
          have hk : scanF a cl (lvl + 1) rest = some k :=
            (ih (lvl + 1) k).mpr
              ⟨(balanced_succ_op hne).mp hb,
               fun k' hk' hb' =>
                 hmin (k' + 1) (by omega) ((balanced_succ_op hne).mpr hb')⟩
          rw [Option.map_eq_some']
          exact ⟨k, hk, rfl⟩
    · by_cases hacl : a = cl
      · subst hacl
        by_cases hlvl : lvl = 0
        · subst hlvl
          rw [show scanF op a 0 (a :: rest) = some 0 by
            simp only [scanF]
            rw [if_neg haop, if_neg (by simp), if_pos trivial]]
          constructor
          · intro h
            cases h
            exact ⟨balanced_zero.mpr ⟨rfl, rfl⟩, by omega⟩
          · rintro ⟨hb, hmin⟩
            cases j with
            | zero => rfl
            | succ k =>
              exact absurd (balanced_zero.mpr ⟨rfl, rfl⟩) (hmin 0 (by omega))
        · rw [show scanF op a lvl (a :: rest) = (scanF op a (lvl - 1) rest).map (· + 1) by
            simp only [scanF]
            rw [if_neg haop, if_neg (by simp), if_neg hlvl]]
          constructor
          · intro h
            rcases Option.map_eq_some'.mp h with ⟨k, hk, rfl⟩
            rcases (ih (lvl - 1) k).mp hk with ⟨hb, hmin⟩
            refine ⟨(balanced_succ_cl hne (by omega)).mpr hb, ?_⟩
            intro j' hj' hbj'
            cases j' with
            | zero => exact hlvl (balanced_zero.mp hbj').2
            | succ j'' =>
              exact hmin j'' (by omega) ((balanced_succ_cl hne (by omega)).mp hbj')
          · rintro ⟨hb, hmin⟩
            cases j with
            | zero => exact absurd (balanced_zero.mp hb).2 hlvl
            | succ k =>
              have hk : scanF op a (lvl - 1) rest = some k :=
                (ih (lvl - 1) k).mpr
                  ⟨(balanced_succ_cl hne (by omega)).mp hb,
                   fun k' hk' hb' =>
                     hmin (k' + 1) (by omega)
                       ((balanced_succ_cl hne (by omega)).mpr hb')⟩
              rw [Option.map_eq_some']
              exact ⟨k, hk, rfl⟩
      · rw [show scanF op cl lvl (a :: rest) = (scanF op cl lvl rest).map (· + 1) by
          simp only [scanF]
          rw [if_neg haop, if_pos hacl]]
        constructor
        · intro h
          rcases Option.map_eq_some'.mp h with ⟨k, hk, rfl⟩
          rcases (ih lvl k).mp hk with ⟨hb, hmin⟩
          refine ⟨(balanced_succ_other haop hacl).mpr hb, ?_⟩
          intro j' hj' hbj'
          cases j' with
          | zero => exact hacl (balanced_zero.mp hbj').1
          | succ j'' =>
            exact hmin j'' (by omega) ((balanced_succ_other haop hacl).mp hbj')
        · rintro ⟨hb, hmin⟩
          cases j with
          | zero => exact absurd (balanced_zero.mp hb).1 hacl
          | succ k =>
            have hk : scanF op cl lvl rest = some k :=
              (ih lvl k).mpr
                ⟨(balanced_succ_other haop hacl).mp hb,
                 fun k' hk' hb' =>
                   hmin (k' + 1) (by omega) ((balanced_succ_other haop hacl).mpr hb')⟩
            rw [Option.map_eq_some']
            exact ⟨k, hk, rfl⟩

theorem bump_length (idx : List Nat) (l : Nat) (hl : l ≤ idx.length) :
    (idx.take l ++ (idx.drop l).map (· + 1)).length = idx.length := by
  rw [List.length_append, List.length_take, List.length_map, List.length_drop]
  omega

/-- Entrywise description of the index list after the `*x += 1` loop over
`newline_indices[l..]`. -/
theorem bump_getD (idx : List Nat) (l k : Nat) (hl : l ≤ idx.length) :
    (idx.take l ++ (idx.drop l).map (· + 1)).getD k 0 =
      if k < l then idx.getD k 0
      else if k < idx.length then idx.getD k 0 + 1
      else 0 := by
  have hlt : (idx.take l).length = l := by
    rw [List.length_take]; omega
  by_cases h1 : k < l
  · rw [if_pos h1]
    have hk : k < (idx.take l ++ (idx.drop l).map (· + 1)).length := by
      rw [bump_length idx l hl]; omega
    rw [List.getD_eq_getElem _ _ hk, List.getD_eq_getElem _ _ (by omega)]
    rw [List.getElem_append_left (by omega)]
    exact List.getElem_take _
  · by_cases h2 : k < idx.length
    · rw [if_neg h1, if_pos h2]
      have hk : k < (idx.take l ++ (idx.drop l).map (· + 1)).length := by
        rw [bump_length idx l hl]; omega
      rw [List.getD_eq_getElem _ _ hk, List.getD_eq_getElem _ _ h2]
      rw [List.getElem_append_right (by omega)]
      simp only [List.getElem_map, List.getElem_drop, hlt]
      congr 2
      omega
    · rw [if_neg h1, if_neg h2]
      exact List.getD_eq_default _ _ (by rw [bump_length idx l hl]; omega)

theorem bumpins_length (idx : List Nat) (l i : Nat) (hl : l ≤ idx.length) :
    ((idx.take l ++ (idx.drop l).map (· + 1)).insertIdx l i).length = idx.length + 1 := by
  rw [List.length_insertIdx _ _ (by rw [bump_length idx l hl]; omega),
    bump_length idx l hl]

/-- Entrywise description of the index list after the shift-up loop plus the
`insert(line, i)` of a fresh newline entry. -/
theorem bumpins_getD (idx : List Nat) (l i k : Nat) (hl : l ≤ idx.length) :
    ((idx.take l ++ (idx.drop l).map (· + 1)).insertIdx l i).getD k 0 =
      if k < l then idx.getD k 0
      else if k = l then i
      else if k < idx.length + 1 then idx.getD (k - 1) 0 + 1
      else 0 := by
  have hbl : (idx.take l ++ (idx.drop l).map (· + 1)).length = idx.length :=
    bump_length idx l hl
  by_cases h1 : k < l
  · rw [if_pos h1]
    have hk : k < ((idx.take l ++ (idx.drop l).map (· + 1)).insertIdx l i).length := by
      rw [bumpins_length idx l i hl]; omega
    rw [List.getD_eq_getElem _ _ hk]
    rw [List.getElem_insertIdx_of_lt _ _ _ _ h1 (by omega)]
    rw [← List.getD_eq_getElem _ 0 (by omega : k < (idx.take l ++ (idx.drop l).map (· + 1)).length)]
    rw [bump_getD idx l k hl, if_pos h1]
  · by_cases h2 : k = l
    · subst h2
      rw [if_neg h1, if_pos rfl]
      have hk : k < ((idx.take k ++ (idx.drop k).map (· + 1)).insertIdx k i).length := by
        rw [bumpins_length idx k i hl]; omega
      rw [List.getD_eq_getElem _ _ hk]
      exact List.getElem_insertIdx_self _ _ _ (by rw [bump_length idx k hl]; omega)
    · by_cases h3 : k < idx.length + 1
      · rw [if_neg h1, if_neg h2, if_pos h3]
        have hkform : l + (k - l - 1) + 1 = k := by omega
        have hmid : l + (k - l - 1) < (idx.take l ++ (idx.drop l).map (· + 1)).length := by
          rw [hbl]; omega
        have hins : l + (k - l - 1) + 1 <
            ((idx.take l ++ (idx.drop l).map (· + 1)).insertIdx l i).length := by
          rw [bumpins_length idx l i hl]; omega
        calc ((idx.take l ++ (idx.drop l).map (· + 1)).insertIdx l i).getD k 0
            = ((idx.take l ++ (idx.drop l).map (· + 1)).insertIdx l i).getD
                (l + (k - l - 1) + 1) 0 := by rw [hkform]
          _ = (idx.take l ++ (idx.drop l).map (· + 1)).getD (l + (k - l - 1)) 0 := by
                rw [List.getD_eq_getElem _ _ hins, List.getD_eq_getElem _ _ hmid]
                exact List.getElem_insertIdx_add_succ _ _ _ _ (by rw [hbl]; omega)
          _ = idx.getD (k - 1) 0 + 1 := by
                rw [bump_getD idx l _ hl, if_neg (by omega), if_pos (by omega)]
                congr 2
                omega
      · rw [if_neg h1, if_neg h2, if_neg h3]
        exact List.getD_eq_default _ _ (by rw [bumpins_length idx l i hl]; omega)

/-- The shift-down loop undoes the shift-up loop: taking the bumped list and
subtracting one from every entry at or after `l` restores the original. -/
theorem bump_unbump (idx : List Nat) (l : Nat) (hl : l ≤ idx.length) :
    ((idx.take l ++ (idx.drop l).map (· + 1)).take l ++
      (((idx.take l ++ (idx.drop l).map (· + 1)).drop l).map (· - 1))) = idx := by
  have hlt : (idx.take l).length = l := by
    rw [List.length_take]; omega
  have htake : (idx.take l ++ (idx.drop l).map (· + 1)).take l = idx.take l :=
    List.take_left' hlt
  have hdrop : (idx.take l ++ (idx.drop l).map (· + 1)).drop l = (idx.drop l).map (· + 1) :=
    List.drop_left' hlt
  rw [htake, hdrop, List.map_map]
  have : ((fun x => x - 1) ∘ fun x => x + 1) = id := by
    funext x
    simp
  rw [this, List.map_id, List.take_append_drop]

theorem bump_pairwise (idx : List Nat) (l : Nat) (hasc : idx.Pairwise (· < ·))
    (hl : l ≤ idx.length) :
    (idx.take l ++ (idx.drop l).map (· + 1)).Pairwise (· < ·) := by
  rw [List.pairwise_iff_getElem]
  intro a b ha hb hab
  have hlen := bump_length idx l hl
  rw [← List.getD_eq_getElem _ 0 ha, ← List.getD_eq_getElem _ 0 hb]
  rw [bump_getD idx l a hl, bump_getD idx l b hl]
  have hb' : b < idx.length := by rw [hlen] at hb; exact hb
  have ha' : a < idx.length := by omega
  have hlt := getD_lt_getD_of_pairwise hasc hab hb'
  by_cases h1 : a < l <;> by_cases h2 : b < l
  · rw [if_pos h1, if_pos h2]
    exact hlt
  · rw [if_pos h1, if_neg h2, if_pos hb']
    omega
  · exact absurd hab (by omega)
  · rw [if_neg h1, if_pos ha', if_neg h2, if_pos hb']
    omega

theorem bumpins_pairwise (idx : List Nat) (l i : Nat) (hasc : idx.Pairwise (· < ·))
    (hl : l < idx.length)
    (hge : l ≠ 0 → idx.getD (l - 1) 0 < i)
    (hle : i ≤ idx.getD l 0) :
    ((idx.take l ++ (idx.drop l).map (· + 1)).insertIdx l i).Pairwise (· < ·) := by
  rw [List.pairwise_iff_getElem]
  intro a b ha hb hab
  have hlen := bumpins_length idx l i (by omega)
  rw [← List.getD_eq_getElem _ 0 ha, ← List.getD_eq_getElem _ 0 hb]
  rw [bumpins_getD idx l i a (by omega), bumpins_getD idx l i b (by omega)]
  rw [hlen] at ha hb
  have hmono : ∀ x y : Nat, x < y → y < idx.length → idx.getD x 0 < idx.getD y 0 :=
    fun x y hxy hy => getD_lt_getD_of_pairwise hasc hxy hy
  have hmonole : ∀ x y : Nat, x ≤ y → y < idx.length → idx.getD x 0 ≤ idx.getD y 0 :=
    fun x y hxy hy => getD_le_getD_of_pairwise hasc hxy hy
  by_cases h1 : a < l
  · rw [if_pos h1]
    by_cases h2 : b < l
    · rw [if_pos h2]
      exact hmono a b hab (by omega)
    · by_cases h3 : b = l
      · rw [if_neg h2, if_pos h3]
        have := hge (by omega)
        have := hmonole a (l - 1) (by omega) (by omega)
        omega
      · rw [if_neg h2, if_neg h3, if_pos (by omega)]
        have := hmono a (b - 1) (by omega) (by omega)
        omega
  · by_cases h1' : a = l
    · rw [if_neg h1, if_pos h1']
      rw [if_neg (by omega), if_neg (by omega), if_pos (by omega)]
      have := hmonole l (b - 1) (by omega) (by omega)
      omega
    · rw [if_neg h1, if_neg h1', if_pos (by omega)]
      rw [if_neg (by omega), if_neg (by omega), if_pos (by omega)]
      have := hmono (a - 1) (b - 1) (by omega) (by omega)
      omega

theorem bump_bound (idx : List Nat) (l len : Nat) (hb : ∀ x ∈ idx, x ≤ len) :
    ∀ x ∈ idx.take l ++ (idx.drop l).map (· + 1), x ≤ len + 1 := by
  intro x hx
  rcases List.mem_append.mp hx with h | h
  · have := hb x (List.mem_of_mem_take h)
    omega
  · rcases List.mem_map.mp h with ⟨y, hy, rfl⟩
    have := hb y (List.mem_of_mem_drop hy)
    omega

theorem bumpins_bound (idx : List Nat) (l i len : Nat) (hb : ∀ x ∈ idx, x ≤ len)
    (hl : l ≤ idx.length) (hi : i ≤ len) :
    ∀ x ∈ (idx.take l ++ (idx.drop l).map (· + 1)).insertIdx l i, x ≤ len + 1 := by
  intro x hx
  rcases (List.mem_insertIdx (by rw [bump_length idx l hl]; omega)).mp hx with rfl | h
  · omega
  · exact bump_bound idx l len hb x h

/-- Line widths after the shift-up loop alone (a non-newline insertion into
line `l`): line `l` widens by one, all other lines keep their width. -/
theorem line_width_bump (c : Core) (buf' : List Char) (x y l k wk : Nat)
    (hstart : lineStart c l ≤ c.newline_indices.getD l 0)
    (hl : l < c.newline_indices.length)
    (hwk : c.line_width k = some wk) :
    Core.line_width
        ⟨buf', c.newline_indices.take l ++ (c.newline_indices.drop l).map (· + 1), x, y⟩ k
      = some (if k = l then wk + 1 else wk) := by
  obtain ⟨hk, hwval⟩ := line_width_some_inv hwk
  have hk' : k < c.newline_indices.length := hk
  have hlw := line_width_some
    (c := ⟨buf', c.newline_indices.take l ++ (c.newline_indices.drop l).map (· + 1), x, y⟩)
    (n := k)
    (by
      show k < (c.newline_indices.take l ++ (c.newline_indices.drop l).map (· + 1)).length
      rw [bump_length _ _ (by omega)]
      exact hk')
  rw [hlw]
  congr 1
  show (c.newline_indices.take l ++ (c.newline_indices.drop l).map (· + 1)).getD k 0 -
      (if k = 0 then 0
       else (c.newline_indices.take l ++ (c.newline_indices.drop l).map (· + 1)).getD (k - 1) 0 + 1) =
    if k = l then wk + 1 else wk
  rw [bump_getD c.newline_indices l k (by omega), bump_getD c.newline_indices l (k - 1) (by omega)]
  by_cases hk0 : k = 0
  · subst hk0
    have e1 : lineStart c 0 = 0 := by
      unfold lineStart
      rw [if_pos rfl]
    rw [e1] at hwval
    rw [if_pos rfl]
    by_cases h0l : (0 : Nat) < l
    · rw [if_pos h0l, if_neg (by omega)]
      omega
    · rw [if_neg h0l, if_pos (by omega), if_pos (by omega)]
      omega
  · have e2 : lineStart c k = c.newline_indices.getD (k - 1) 0 + 1 := by
      unfold lineStart
      rw [if_neg hk0]
    rw [e2] at hwval
    rw [if_neg hk0]
    by_cases hkl : k < l
    · rw [if_pos hkl, if_pos (by omega), if_neg (by omega)]
      omega
    · by_cases hkeq : k = l
      · subst hkeq
        have e3 : lineStart c k = c.newline_indices.getD (k - 1) 0 + 1 := e2
        rw [e3] at hstart
        rw [if_neg (by omega), if_pos hk', if_pos (by omega), if_pos rfl]
        omega
      · rw [if_neg hkl, if_pos hk', if_neg (by omega), if_pos (by omega), if_neg hkeq]
        omega

/-- Line widths after a newline insertion into line `l` at offset `i` (shift
up then insert the index entry): line `l` is cut down to `col`, a new line
`l+1` of width `index[l] - i` appears, later lines shift by one. -/
theorem line_width_bumpins (c : Core) (buf' : List Char) (x y l i col k : Nat)
    (hl : l < c.newline_indices.length)
    (hi : i = lineStart c l + col)
    (hk : k < c.newline_indices.length + 1) :
    Core.line_width
        ⟨buf', (c.newline_indices.take l ++ (c.newline_indices.drop l).map (· + 1)).insertIdx l i,
          x, y⟩ k
      = if k < l then c.line_width k
        else if k = l then some col
        else if k = l + 1 then some (c.newline_indices.getD l 0 + 1 - (i + 1))
        else c.line_width (k - 1) := by
  have hlw := line_width_some
    (c := ⟨buf',
      (c.newline_indices.take l ++ (c.newline_indices.drop l).map (· + 1)).insertIdx l i, x, y⟩)
    (n := k)
    (by
      show k <
        ((c.newline_indices.take l ++ (c.newline_indices.drop l).map (· + 1)).insertIdx l i).length
      rw [bumpins_length _ _ _ (by omega)]
      exact hk)
  rw [hlw]
  have egDk := bumpins_getD c.newline_indices l i k (by omega)
  have egDk1 := bumpins_getD c.newline_indices l i (k - 1) (by omega)
  have elS : lineStart
      (⟨buf',
        (c.newline_indices.take l ++ (c.newline_indices.drop l).map (· + 1)).insertIdx l i,
        x, y⟩ : Core) k =
      if k = 0 then 0
      else ((c.newline_indices.take l ++ (c.newline_indices.drop l).map (· + 1)).insertIdx l i).getD
        (k - 1) 0 + 1 := rfl
  rw [elS]
  by_cases h1 : k < l
  · rw [if_pos h1] at egDk
    rw [if_pos h1]
    rw [line_width_some (show k < c.line_count by show k < c.newline_indices.length; omega)]
    rw [egDk]
    by_cases hk0 : k = 0
    · rw [if_pos hk0]
      have e0 : lineStart c k = 0 := by
        unfold lineStart
        rw [if_pos hk0]
      rw [e0]
    · rw [if_neg hk0]
      rw [if_pos (show k - 1 < l by omega)] at egDk1
      rw [egDk1]
      have e0 : lineStart c k = c.newline_indices.getD (k - 1) 0 + 1 := by
        unfold lineStart
        rw [if_neg hk0]
      rw [e0]
  · by_cases h2 : k = l
    · rw [if_neg (by omega), if_pos h2] at egDk
      rw [if_neg h1, if_pos h2]
      rw [egDk]
      by_cases hk0 : k = 0
      · rw [if_pos hk0]
        have e0 : lineStart c l = 0 := by
          unfold lineStart
          rw [if_pos (by omega)]
        rw [e0] at hi
        congr 1
        omega
      · rw [if_neg hk0]
        rw [if_pos (show k - 1 < l by omega)] at egDk1
        rw [egDk1]
        have e0 : lineStart c l = c.newline_indices.getD (l - 1) 0 + 1 := by
          unfold lineStart
          rw [if_neg (by omega)]
        rw [e0] at hi
        congr 1
        rw [show k - 1 = l - 1 by omega]
        omega
    · by_cases h3 : k = l + 1
      · rw [if_neg (by omega), if_neg h2, if_pos (by omega)] at egDk
        rw [if_neg (by omega), if_pos (show k - 1 = l by omega)] at egDk1
        rw [if_neg h1, if_neg h2, if_pos h3]
        rw [egDk, if_neg (show ¬k = 0 by omega), egDk1]
        congr 1
        rw [show k - 1 = l by omega]
      · rw [if_neg (by omega), if_neg h2, if_pos (by omega)] at egDk
        rw [if_neg (by omega), if_neg (by omega), if_pos (by omega)] at egDk1
        rw [if_neg h1, if_neg h2, if_neg h3]
        rw [egDk, if_neg (show ¬k = 0 by omega), egDk1]
        rw [line_width_some (show k - 1 < c.line_count by
          show k - 1 < c.newline_indices.length; omega)]
        have e0 : lineStart c (k - 1) = c.newline_indices.getD (k - 1 - 1) 0 + 1 := by
          unfold lineStart
          rw [if_neg (by omega)]
        rw [e0]
        congr 1
        omega

/-- The complete behaviour of a single valid insertion: the buffer gains
`ch` at offset `i`, the result is well-formed, the original target
`(l, col)` still resolves to offset `i`, and `delete_at(l, col)` undoes the
insertion exactly - restoring buffer, line index and cursor. -/
theorem insert_at_spec (c : Core) (ch : Char) (l col i : Nat)
    (hwf : c.WF) (hoff : c.offset l col = some i) :
    (c.insert_at ch l col).buffer = c.buffer.insertIdx i ch ∧
    (c.insert_at ch l col).WF ∧
    (c.insert_at ch l col).offset l col = some i ∧
    (c.insert_at ch l col).delete_at l col = some c := by
  obtain ⟨hasc, hbound, hcsome⟩ := hwf
  have hcur : c.offset c.line c.column = some c.current_offset :=
    wf_current_offset ⟨hasc, hbound, hcsome⟩
  obtain ⟨w, hw, hcol, hi⟩ := offset_some_inv hoff
  obtain ⟨hl, hwval⟩ := line_width_some_inv hw
  obtain ⟨wL, hwL, hcolL, hiL⟩ := offset_some_inv hcur
  obtain ⟨hL, hwLval⟩ := line_width_some_inv hwL
  have hl' : l < c.newline_indices.length := hl
  have hL' : c.line < c.newline_indices.length := hL
  have hstart : lineStart c l ≤ c.newline_indices.getD l 0 := lineStart_le_getD hasc hl
  have hstartL : lineStart c c.line ≤ c.newline_indices.getD c.line 0 :=
    lineStart_le_getD hasc hL
  have hig : i ≤ c.newline_indices.getD l 0 := by omega
  have hcurg : c.current_offset ≤ c.newline_indices.getD c.line 0 := by omega
  have hilen : i ≤ c.buffer.length := Nat.le_trans hig (getD_le_length hbound hl')
  have hbuflen : (c.buffer.insertIdx i ch).length = c.buffer.length + 1 :=
    List.length_insertIdx _ _ hilen
  have hgotch : (c.buffer.insertIdx i ch).getD i ' ' = ch := by
    rw [List.getD_eq_getElem _ _ (by rw [hbuflen]; omega)]
    exact List.getElem_insertIdx_self _ _ _ hilen
  have hbufrest : (c.buffer.insertIdx i ch).eraseIdx i = c.buffer :=
    List.eraseIdx_insertIdx _ _
  by_cases hch : ch = '\n'
  · subst hch
    have hIlen := bumpins_length c.newline_indices l i (by omega)
    have hIasc : ((c.newline_indices.take l ++
        (c.newline_indices.drop l).map (· + 1)).insertIdx l i).Pairwise (· < ·) := by
      refine bumpins_pairwise c.newline_indices l i hasc hl' (fun h0 => ?_) hig
      have e : lineStart c l = c.newline_indices.getD (l - 1) 0 + 1 := by
        unfold lineStart
        rw [if_neg h0]
      omega
    have hIbound := bumpins_bound c.newline_indices l i c.buffer.length hbound (by omega) hilen
    have hWl : ∀ (bu : List Char) (x y : Nat),
        Core.line_width ⟨bu, (c.newline_indices.take l ++
          (c.newline_indices.drop l).map (· + 1)).insertIdx l i, x, y⟩ l = some col := by
      intro bu x y
      have h1 := line_width_bumpins c bu x y l i col l hl' hi (by omega)
      rwa [if_neg (by omega), if_pos rfl] at h1
    have hlsl : ∀ (bu : List Char) (x y : Nat),
        lineStart (⟨bu, (c.newline_indices.take l ++
          (c.newline_indices.drop l).map (· + 1)).insertIdx l i, x, y⟩ : Core) l
          = lineStart c l := by
      intro bu x y
      unfold lineStart
      simp only []
      by_cases h0 : l = 0
      · rw [if_pos h0, if_pos h0]
      · rw [if_neg h0, if_neg h0,
          bumpins_getD c.newline_indices l i (l - 1) (by omega), if_pos (by omega)]
    have hoffI : ∀ (bu : List Char) (x y : Nat),
        Core.offset ⟨bu, (c.newline_indices.take l ++
          (c.newline_indices.drop l).map (· + 1)).insertIdx l i, x, y⟩ l col = some i := by
      intro bu x y
      have h2 := offset_some (hWl bu x y) (Nat.le_refl col)
      rw [hlsl bu x y] at h2
      rw [h2, hi]
    by_cases hicur : i ≤ c.current_offset
    · by_cases hLl : c.line = l
      · -- newline inserted on the cursor's own line, at or before the cursor
        have hc' : c.insert_at '\n' l col =
            ⟨c.buffer.insertIdx i '\n',
             (c.newline_indices.take l ++
               (c.newline_indices.drop l).map (· + 1)).insertIdx l i,
             c.line + 1, c.current_offset - i⟩ := by
          unfold Core.insert_at
          simp only [hoff]
          rw [if_pos (show True ∧ i ≤ c.current_offset from ⟨trivial, hicur⟩)]
          rw [if_pos (trivial : True)]
          rw [if_pos hLl]
        rw [hc']
        have hW1 := line_width_bumpins c (c.buffer.insertIdx i '\n')
          (c.line + 1) (c.current_offset - i) l i col (c.line + 1) hl' hi (by omega)
        rw [if_neg (by omega), if_neg (by omega), if_pos (by omega)] at hW1
        have hls1 : lineStart (⟨c.buffer.insertIdx i '\n',
            (c.newline_indices.take l ++
              (c.newline_indices.drop l).map (· + 1)).insertIdx l i,
            c.line + 1, c.current_offset - i⟩ : Core) (c.line + 1) = i + 1 := by
          unfold lineStart
          simp only []
          rw [if_neg (by omega), show c.line + 1 - 1 = l by omega,
            bumpins_getD c.newline_indices l i l (by omega),
            if_neg (by omega), if_pos rfl]
        have hcur1 : Core.offset ⟨c.buffer.insertIdx i '\n',
            (c.newline_indices.take l ++
              (c.newline_indices.drop l).map (· + 1)).insertIdx l i,
            c.line + 1, c.current_offset - i⟩ (c.line + 1) (c.current_offset - i)
            = some (c.current_offset + 1) := by
          have h2 := offset_some hW1
            (show c.current_offset - i ≤ c.newline_indices.getD l 0 + 1 - (i + 1) by
              rw [hLl] at hcurg
              omega)
          rw [hls1] at h2
          rw [h2]
          congr 1
          omega
        have hco1 : Core.current_offset ⟨c.buffer.insertIdx i '\n',
            (c.newline_indices.take l ++
              (c.newline_indices.drop l).map (· + 1)).insertIdx l i,
            c.line + 1, c.current_offset - i⟩ = c.current_offset + 1 :=
          congrArg (fun o => o.getD 0) hcur1
        refine ⟨rfl, ⟨hIasc, ?_, ?_⟩, hoffI _ _ _, ?_⟩
        · intro x hx
          have h3 := hIbound x hx
          show x ≤ (c.buffer.insertIdx i '\n').length
          omega
        · show (Core.offset _ (c.line + 1) (c.current_offset - i)).isSome
          rw [hcur1]
          rfl
        · unfold Core.delete_at
          simp only [hWl]
          rw [if_neg (by
            rintro (hx | hx)
            · have h4 : ((c.newline_indices.take l ++
                (c.newline_indices.drop l).map (· + 1)).insertIdx l i).length ≤ l := hx
              rw [hIlen] at h4
              omega
            · omega)]
          simp only [hco1, hoffI, Option.getD_some]
          rw [dif_pos (show i < (c.buffer.insertIdx i '\n').length by rw [hbuflen]; omega)]
          simp only [hgotch]
          rw [if_pos (show True ∧ i < c.current_offset + 1 from ⟨trivial, by omega⟩)]
          rw [if_pos (trivial : True)]
          rw [List.eraseIdx_insertIdx, List.eraseIdx_insertIdx,
            bump_unbump c.newline_indices l (by omega)]
          rw [show c.line + 1 - 1 = c.line by omega, if_pos hLl]
          have hcolrestore : col + (c.current_offset + 1) - i - 1 = c.column := by
            rw [hLl] at hiL
            omega
          rw [hcolrestore]
      · -- newline inserted strictly above the cursor's line
        have hlL : l < c.line := by
          rcases Nat.lt_trichotomy l c.line with h | h | h
          · exact h
          · exact absurd h.symm hLl
          · exfalso
            have h1 := getD_le_getD_of_pairwise hasc
              (show c.line ≤ l - 1 by omega) (show l - 1 < c.newline_indices.length by omega)
            have h2 : lineStart c l = c.newline_indices.getD (l - 1) 0 + 1 := by
              unfold lineStart
              rw [if_neg (by omega)]
            omega
        have hc' : c.insert_at '\n' l col =
            ⟨c.buffer.insertIdx i '\n',
             (c.newline_indices.take l ++
               (c.newline_indices.drop l).map (· + 1)).insertIdx l i,
             c.line + 1, c.column⟩ := by
          unfold Core.insert_at
          simp only [hoff]
          rw [if_pos (show True ∧ i ≤ c.current_offset from ⟨trivial, hicur⟩)]
          rw [if_pos (trivial : True)]
          rw [if_neg hLl]
        rw [hc']
        have hW1 := line_width_bumpins c (c.buffer.insertIdx i '\n')
          (c.line + 1) c.column l i col (c.line + 1) hl' hi (by omega)
        rw [if_neg (by omega), if_neg (by omega), if_neg (by omega)] at hW1
        rw [show c.line + 1 - 1 = c.line by omega, hwL] at hW1
        have hls1 : lineStart (⟨c.buffer.insertIdx i '\n',
            (c.newline_indices.take l ++
              (c.newline_indices.drop l).map (· + 1)).insertIdx l i,
            c.line + 1, c.column⟩ : Core) (c.line + 1) = lineStart c c.line + 1 := by
          unfold lineStart
          simp only []
          rw [if_neg (by omega), show c.line + 1 - 1 = c.line by omega,
            bumpins_getD c.newline_indices l i c.line (by omega),
            if_neg (by omega), if_neg (by omega), if_pos (by omega)]
          rw [if_neg (by omega)]
        have hcur1 : Core.offset ⟨c.buffer.insertIdx i '\n',
            (c.newline_indices.take l ++
              (c.newline_indices.drop l).map (· + 1)).insertIdx l i,
            c.line + 1, c.column⟩ (c.line + 1) c.column
            = some (c.current_offset + 1) := by
          have h2 := offset_some hW1 hcolL
          rw [hls1] at h2
          rw [h2]
          congr 1
          omega
        have hco1 : Core.current_offset ⟨c.buffer.insertIdx i '\n',
            (c.newline_indices.take l ++
              (c.newline_indices.drop l).map (· + 1)).insertIdx l i,
            c.line + 1, c.column⟩ = c.current_offset + 1 :=
          congrArg (fun o => o.getD 0) hcur1
        refine ⟨rfl, ⟨hIasc, ?_, ?_⟩, hoffI _ _ _, ?_⟩
        · intro x hx
          have h3 := hIbound x hx
          show x ≤ (c.buffer.insertIdx i '\n').length
          omega
        · show (Core.offset _ (c.line + 1) c.column).isSome
          rw [hcur1]
          rfl
        · unfold Core.delete_at
          simp only [hWl]
          rw [if_neg (by
            rintro (hx | hx)
            · have h4 : ((c.newline_indices.take l ++
                (c.newline_indices.drop l).map (· + 1)).insertIdx l i).length ≤ l := hx
              rw [hIlen] at h4
              omega
            · omega)]
          simp only [hco1, hoffI, Option.getD_some]
          rw [dif_pos (show i < (c.buffer.insertIdx i '\n').length by rw [hbuflen]; omega)]
          simp only [hgotch]
          rw [if_pos (show True ∧ i < c.current_offset + 1 from ⟨trivial, by omega⟩)]
          rw [if_pos (trivial : True)]
          rw [List.eraseIdx_insertIdx, List.eraseIdx_insertIdx,
            bump_unbump c.newline_indices l (by omega)]
          rw [show c.line + 1 - 1 = c.line by omega, if_neg hLl]
    · -- newline inserted strictly after the cursor's offset: cursor untouched
      have hLle : c.line ≤ l := by
        by_contra hgt
        have h1 := getD_le_getD_of_pairwise hasc
          (show l ≤ c.line - 1 by omega) (show c.line - 1 < c.newline_indices.length by omega)
        have h2 : lineStart c c.line = c.newline_indices.getD (c.line - 1) 0 + 1 := by
          unfold lineStart
          rw [if_neg (by omega)]
        omega
      have hc' : c.insert_at '\n' l col =
          ⟨c.buffer.insertIdx i '\n',
           (c.newline_indices.take l ++
             (c.newline_indices.drop l).map (· + 1)).insertIdx l i,
           c.line, c.column⟩ := by
        unfold Core.insert_at
        simp only [hoff]
        rw [if_neg (show ¬(True ∧ i ≤ c.current_offset) by
          rintro ⟨-, hx⟩
          exact hicur hx)]
        rw [if_neg (show ¬(l = c.line ∧ col ≤ c.column) by
          rintro ⟨h1, h2⟩
          rw [h1] at hi
          omega)]
        rw [if_pos (trivial : True)]
      rw [hc']
      have hlsC : lineStart (⟨c.buffer.insertIdx i '\n',
          (c.newline_indices.take l ++
            (c.newline_indices.drop l).map (· + 1)).insertIdx l i,
          c.line, c.column⟩ : Core) c.line = lineStart c c.line := by
        unfold lineStart
        simp only []
        by_cases h0 : c.line = 0
        · rw [if_pos h0, if_pos h0]
        · rw [if_neg h0, if_neg h0,
            bumpins_getD c.newline_indices l i (c.line - 1) (by omega), if_pos (by omega)]
      have hcurC : Core.offset ⟨c.buffer.insertIdx i '\n',
          (c.newline_indices.take l ++
            (c.newline_indices.drop l).map (· + 1)).insertIdx l i,
          c.line, c.column⟩ c.line c.column = some c.current_offset := by
        by_cases hLeq : c.line = l
        · have h1 := line_width_bumpins c (c.buffer.insertIdx i '\n')
            c.line c.column l i col c.line hl' hi (by omega)
          rw [if_neg (by omega), if_pos hLeq] at h1
          have hClt : c.column < col := by
            rw [hLeq] at hiL
            omega
          have h2 := offset_some h1 (show c.column ≤ col by omega)
          rw [hlsC] at h2
          rw [h2, hiL]
        · have h1 := line_width_bumpins c (c.buffer.insertIdx i '\n')
            c.line c.column l i col c.line hl' hi (by omega)
          rw [if_pos (by omega), hwL] at h1
          have h2 := offset_some h1 hcolL
          rw [hlsC] at h2
          rw [h2, hiL]
      have hcoC : Core.current_offset ⟨c.buffer.insertIdx i '\n',
          (c.newline_indices.take l ++
            (c.newline_indices.drop l).map (· + 1)).insertIdx l i,
          c.line, c.column⟩ = c.current_offset :=
        congrArg (fun o => o.getD 0) hcurC
      refine ⟨rfl, ⟨hIasc, ?_, ?_⟩, hoffI _ _ _, ?_⟩
      · intro x hx
        have h3 := hIbound x hx
        show x ≤ (c.buffer.insertIdx i '\n').length
        omega
      · show (Core.offset _ c.line c.column).isSome
        rw [hcurC]
        rfl
      · unfold Core.delete_at
        simp only [hWl]
        rw [if_neg (by
          rintro (hx | hx)
          · have h4 : ((c.newline_indices.take l ++
              (c.newline_indices.drop l).map (· + 1)).insertIdx l i).length ≤ l := hx
            rw [hIlen] at h4
            omega
          · omega)]
        simp only [hcoC, hoffI, Option.getD_some]
        rw [dif_pos (show i < (c.buffer.insertIdx i '\n').length by rw [hbuflen]; omega)]
        simp only [hgotch]
        rw [if_neg (show ¬(True ∧ i < c.current_offset) by
          rintro ⟨-, hx⟩
          omega)]
        rw [if_neg (show ¬(l = c.line ∧ col < c.column) by
          rintro ⟨h1, h2⟩
          rw [h1] at hi
          omega)]
        rw [if_pos (trivial : True)]
        rw [List.eraseIdx_insertIdx, List.eraseIdx_insertIdx,
          bump_unbump c.newline_indices l (by omega)]
  · -- a plain character: only the target line widens
    have hBasc : (c.newline_indices.take l ++
        (c.newline_indices.drop l).map (· + 1)).Pairwise (· < ·) :=
      bump_pairwise c.newline_indices l hasc (by omega)
    have hBlen := bump_length c.newline_indices l (show l ≤ c.newline_indices.length by omega)
    have hBbound := bump_bound c.newline_indices l c.buffer.length hbound
    have hWlB : ∀ (bu : List Char) (x y : Nat),
        Core.line_width ⟨bu, c.newline_indices.take l ++
          (c.newline_indices.drop l).map (· + 1), x, y⟩ l = some (w + 1) := by
      intro bu x y
      have h1 := line_width_bump c bu x y l l w hstart hl' hw
      rwa [if_pos rfl] at h1
    have hlslB : ∀ (bu : List Char) (x y : Nat),
        lineStart (⟨bu, c.newline_indices.take l ++
          (c.newline_indices.drop l).map (· + 1), x, y⟩ : Core) l = lineStart c l := by
      intro bu x y
      unfold lineStart
      simp only []
      by_cases h0 : l = 0
      · rw [if_pos h0, if_pos h0]
      · rw [if_neg h0, if_neg h0,
          bump_getD c.newline_indices l (l - 1) (by omega), if_pos (by omega)]
    have hoffP : ∀ (bu : List Char) (x y : Nat),
        Core.offset ⟨bu, c.newline_indices.take l ++
          (c.newline_indices.drop l).map (· + 1), x, y⟩ l col = some i := by
      intro bu x y
      have h2 := offset_some (hWlB bu x y) (show col ≤ w + 1 by omega)
      rw [hlslB bu x y] at h2
      rw [h2, hi]
    have hWc : ∀ (bu : List Char) (x y : Nat),
        Core.line_width ⟨bu, c.newline_indices.take l ++
          (c.newline_indices.drop l).map (· + 1), x, y⟩ c.line
          = some (if c.line = l then wL + 1 else wL) := by
      intro bu x y
      exact line_width_bump c bu x y l c.line wL hstart hl' hwL
    by_cases hD : l = c.line ∧ col ≤ c.column
    · -- same line, at or before the cursor column
      have hc' : c.insert_at ch l col =
          ⟨c.buffer.insertIdx i ch,
           c.newline_indices.take l ++ (c.newline_indices.drop l).map (· + 1),
           c.line, c.column + 1⟩ := by
        unfold Core.insert_at
        simp only [hoff]
        rw [if_neg hch]
        rw [if_neg (show ¬(ch = '\n' ∧ i ≤ c.current_offset) by
          rintro ⟨hx, -⟩
          exact hch hx)]
        rw [if_pos hD]
      rw [hc']
      refine ⟨rfl, ⟨hBasc, ?_, ?_⟩, hoffP _ _ _, ?_⟩
      · intro x hx
        have h3 := hBbound x hx
        show x ≤ (c.buffer.insertIdx i ch).length
        omega
      · show (Core.offset _ c.line (c.column + 1)).isSome
        have h1 := hWc (c.buffer.insertIdx i ch) c.line (c.column + 1)
        have h2 := offset_some h1
          (show c.column + 1 ≤ (if c.line = l then wL + 1 else wL) by
            rw [if_pos hD.1.symm]
            omega)
        rw [h2]
        rfl
      · unfold Core.delete_at
        simp only [hWlB]
        rw [if_neg (by
          rintro (hx | hx)
          · have h4 : (c.newline_indices.take l ++
              (c.newline_indices.drop l).map (· + 1)).length ≤ l := hx
            rw [hBlen] at h4
            omega
          · omega)]
        simp only [hoffP, Option.getD_some]
        rw [dif_pos (show i < (c.buffer.insertIdx i ch).length by rw [hbuflen]; omega)]
        simp only [hgotch]
        rw [if_neg (show ¬(ch = '\n' ∧ i < Core.current_offset
            ⟨c.buffer.insertIdx i ch,
             c.newline_indices.take l ++ (c.newline_indices.drop l).map (· + 1),
             c.line, c.column + 1⟩) by
          rintro ⟨hx, -⟩
          exact hch hx)]
        rw [if_neg hch]
        rw [if_pos (show l = c.line ∧ col < c.column + 1 from ⟨hD.1, by omega⟩)]
        rw [bump_unbump c.newline_indices l (by omega), hbufrest]
        rw [show c.column + 1 - 1 = c.column by omega]
    · -- cursor untouched
      have hc' : c.insert_at ch l col =
          ⟨c.buffer.insertIdx i ch,
           c.newline_indices.take l ++ (c.newline_indices.drop l).map (· + 1),
           c.line, c.column⟩ := by
        unfold Core.insert_at
        simp only [hoff]
        rw [if_neg hch]
        rw [if_neg (show ¬(ch = '\n' ∧ i ≤ c.current_offset) by
          rintro ⟨hx, -⟩
          exact hch hx)]
        rw [if_neg hD]
      rw [hc']
      refine ⟨rfl, ⟨hBasc, ?_, ?_⟩, hoffP _ _ _, ?_⟩
      · intro x hx
        have h3 := hBbound x hx
        show x ≤ (c.buffer.insertIdx i ch).length
        omega
      · show (Core.offset _ c.line c.column).isSome
        have h1 := hWc (c.buffer.insertIdx i ch) c.line c.column
        have h2 := offset_some h1
          (show c.column ≤ (if c.line = l then wL + 1 else wL) by
            by_cases hq : c.line = l
            · rw [if_pos hq]
              omega
            · rw [if_neg hq]
              omega)
        rw [h2]
        rfl
      · unfold Core.delete_at
        simp only [hWlB]
        rw [if_neg (by
          rintro (hx | hx)
          · have h4 : (c.newline_indices.take l ++
              (c.newline_indices.drop l).map (· + 1)).length ≤ l := hx
            rw [hBlen] at h4
            omega
          · omega)]
        simp only [hoffP, Option.getD_some]
        rw [dif_pos (show i < (c.buffer.insertIdx i ch).length by rw [hbuflen]; omega)]
        simp only [hgotch]
        rw [if_neg (show ¬(ch = '\n' ∧ i < Core.current_offset
            ⟨c.buffer.insertIdx i ch,
             c.newline_indices.take l ++ (c.newline_indices.drop l).map (· + 1),
             c.line, c.column⟩) by
          rintro ⟨hx, -⟩
          exact hch hx)]
        rw [if_neg hch]
        rw [if_neg (show ¬(l = c.line ∧ col < c.column) by
          rintro ⟨h1, h2⟩
          exact hD ⟨h1, by omega⟩)]
        rw [bump_unbump c.newline_indices l (by omega), hbufrest]

theorem insertIdx_eq_take_cons_drop {α : Type} (a : α) :
    ∀ (i : Nat) (l : List α), i ≤ l.length →
      l.insertIdx i a = l.take i ++ a :: l.drop i := by
  intro i
  induction i with
  | zero =>
    intro l h
    simp [List.insertIdx_zero]
  | succ n ih =>
    intro l h
    cases l with
    | nil => simp at h
    | cons x xs =>
      rw [List.insertIdx_succ_cons, ih xs (by simpa using h)]
      simp

/-- Claim C3: for every well-formed core and every valid target `(l, col)`,
inserting a character at `(l, col)` and then deleting at `(l, col)` restores
the original state exactly — the buffer, the line index, and the cursor's
line and column (the deletion returns `some`, i.e. it cannot panic here). -/
theorem C3_insert_delete_inverse (c : Core) (ch : Char) (l col i : Nat)
    (hwf : c.WF) (hoff : c.offset l col = some i) :
    (c.insert_at ch l col).delete_at l col = some c :=
  (insert_at_spec c ch l col i hwf hoff).2.2.2

/-- Witness for C3: on `"Hello, world!\nThe 2nd line."` with cursor
`(1, 6)`, inserting a newline at `(0, 5)` and deleting at `(0, 5)` gives
back the original core; likewise for a plain character at `(1, 13)`. -/
theorem C3_insert_delete_inverse_witness :
    (coreHello.insert_at '\n' 0 5).delete_at 0 5 = some coreHello ∧
    (coreHello.insert_at 'x' 1 13).delete_at 1 13 = some coreHello :=
  ⟨C3_insert_delete_inverse coreHello '\n' 0 5 5 (by decide) (by decide),
   C3_insert_delete_inverse coreHello 'x' 1 13 27 (by decide) (by decide)⟩

/-- Claim C6: `insert_string_at(s, line, column)` — which inserts the
characters of `s` one at a time in reverse order, each at the same
`(line, column)` — produces exactly the buffer obtained by splicing `s`
left-to-right into the original buffer at the absolute offset of
`(line, column)`. -/
theorem C6_insert_string_splice (s : List Char) (l col i : Nat) :
    ∀ (c : Core), c.WF → c.offset l col = some i →
      (c.insert_string_at s l col).buffer =
        c.buffer.take i ++ s ++ c.buffer.drop i := by
  induction s using List.reverseRecOn with
  | nil =>
    intro c hwf hoff
    show c.buffer = c.buffer.take i ++ [] ++ c.buffer.drop i
    rw [List.append_nil, List.take_append_drop]
  | append_singleton s' a ih =>
    intro c hwf hoff
    obtain ⟨hbuf, hwf1, hoff1, -⟩ := insert_at_spec c a l col i hwf hoff
    have hilen : i ≤ c.buffer.length := offset_le_length hwf hoff
    have h1 : Core.insert_string_at c (s' ++ [a]) l col
        = Core.insert_string_at (c.insert_at a l col) s' l col := by
      unfold Core.insert_string_at
      rw [List.reverse_append]
      rfl
    rw [h1, ih _ hwf1 hoff1, hbuf,
      insertIdx_eq_take_cons_drop a i c.buffer hilen]
    rw [List.take_left' (by rw [List.length_take]; omega),
      List.drop_left' (by rw [List.length_take]; omega)]
    simp

/-- Witness for C6: the repository's own `test_insert_string_at`: splicing
`"bbb "` into `"aaa ccc ddd"` at `(0, 4)` gives `"aaa bbb ccc ddd"`. -/
theorem C6_insert_string_splice_witness :
    (coreDdd.insert_string_at "bbb ".data 0 4).buffer = "aaa bbb ccc ddd".data := by
  have h := C6_insert_string_splice "bbb ".data 0 4 4 coreDdd (by decide) (by decide)
  rw [h]
  decide

/-- Claim C7: when the cursor's character equals the opening delimiter,
`match_pair` returns exactly the offset of the first subsequent closing
character encountered while the nesting counter is zero (the first later
position holding the close with the opens and closes strictly in between
balanced), and it returns "no match" when the cursor's character is neither
delimiter; concretely, on `"a ( b ) c"` with the cursor at column 2 it
returns offset 6, and with the cursor at column 0 it returns none. -/
theorem C7_match_pair_contract :
    (∀ (c : Core) (op cl x : Char),
        c.buffer.get? c.current_offset = some x → x ≠ op → x ≠ cl →
        c.match_pair op cl = some none) ∧
    (∀ (c : Core) (op cl : Char), op ≠ cl →
        c.buffer.get? c.current_offset = some op →
        ∀ j, (c.match_pair op cl = some (some j) ↔
          ∃ k, j = k + c.current_offset + 1 ∧
            BalancedCloseAt op cl 0 (c.buffer.drop (c.current_offset + 1)) k ∧
            ∀ k' < k, ¬ BalancedCloseAt op cl 0 (c.buffer.drop (c.current_offset + 1)) k')) ∧
    Core.new "a ( b ) c" 0 2 = some coreParen ∧
    coreParen.match_pair '(' ')' = some (some 6) ∧
    Core.new "a ( b ) c" 0 0 = some coreParenA ∧
    coreParenA.match_pair '(' ')' = some none := by
  refine ⟨?_, ?_, by decide, by decide, by decide, by decide⟩
  · intro c op cl x hx h1 h2
    unfold Core.match_pair
    simp only [hx]
    rw [if_neg h1, if_neg h2]
  · intro c op cl hne hx j
    unfold Core.match_pair
    simp only [hx]
    rw [if_pos trivial]
    constructor
    · intro h
      have h' := Option.some.inj h
      rcases Option.map_eq_some'.mp h' with ⟨k, hk, rfl⟩
      rcases (scanF_eq_some_iff hne _ 0 k).mp hk with ⟨hb, hmin⟩
      exact ⟨k, rfl, hb, hmin⟩
    · rintro ⟨k, rfl, hb, hmin⟩
      have hk : scanF op cl 0 (c.buffer.drop (c.current_offset + 1)) = some k :=
        (scanF_eq_some_iff hne _ 0 k).mpr ⟨hb, hmin⟩
      rw [hk]
      rfl

/-- Witness for C7: both general parts applied at `"a ( b ) c"`: on the
cursor at the `(` the balanced-close characterisation yields offset
`3 + 2 + 1 = 6`; on the cursor at the `a` the non-delimiter case yields
"no match". -/
theorem C7_match_pair_contract_witness :
    coreParen.match_pair '(' ')' = some (some 6) ∧
    coreParenA.match_pair '(' ')' = some none :=
  ⟨(C7_match_pair_contract.2.1 coreParen '(' ')' (by decide) (by decide) 6).mpr
      ⟨3, by decide, by decide, by decide⟩,
   C7_match_pair_contract.1 coreParenA '(' ')' 'a' (by decide) (by decide) (by decide)⟩

end Edit
